import Mathlib

/-!
Verification of the `xo` lazy line-buffer editor core (src/xo/main.py).

Strings are modelled as `List Char` (Python `str` at the decoded text
level, where `readline` splits on the single terminator `'\n'`).
The `LineWalker` object is modelled as an explicit `State` record; each
Python method becomes a state-passing function.  Fallible operations
(Python `IndexError` / failed `assert`) return `Option` / `Except`.
-/

/-- Python `str.isspace` membership for the ASCII whitespace characters
stripped by `str.rstrip()` (the inputs of this program contain only the
first two in practice). -/
def pyIsSpace (c : Char) : Bool :=
  c = ' ' || c = '\t' || c = '\n' || c = '\r' || c = '\x0b' || c = '\x0c'

/-- Python `str.rstrip()`: remove trailing whitespace. -/
def rstrip (s : List Char) : List Char :=
  (s.reverse.dropWhile pyIsSpace).reverse

/-- Python `str.expandtabs()` with the default tab size 8, tracking the
current column `col`: a tab becomes spaces up to the next multiple-of-8
stop; `'\n'`/`'\r'` reset the column. -/
def expandtabsFrom (col : Nat) : List Char → List Char
  | [] => []
  | c :: cs =>
    if c = '\t' then
      List.replicate (8 - col % 8) ' ' ++ expandtabsFrom (col + (8 - col % 8)) cs
    else if c = '\n' ∨ c = '\r' then
      c :: expandtabsFrom 0 cs
    else
      c :: expandtabsFrom (col + 1) cs

/-- `s.expandtabs()` starting at column 0. -/
def expandtabs (s : List Char) : List Char :=
  expandtabsFrom 0 s

/-- The loop of `re_tab` (src/xo/main.py:326-330): scan window boundaries
`i = 8, 16, ...` strictly below `len s`; whenever the two characters before
the boundary are both spaces, emit `rstrip s[p:i] + "\t"` and set `p := i`.
Returns the emitted pieces and the final `p`. -/
def reTabGo (s : List Char) (i p : Nat) : List (List Char) × Nat :=
  if h : i < s.length then
    if ((s.drop (i - 2)).take 2) = [' ', ' '] then
      let seg := rstrip ((s.take i).drop p) ++ ['\t']
      let r := reTabGo s (i + 8) i
      (seg :: r.1, r.2)
    else
      reTabGo s (i + 8) p
  else
    ([], p)
termination_by s.length - i
decreasing_by all_goals omega

/-- `re_tab` (src/xo/main.py:322-336): return a tabbed string from an
expanded one.  If no window boundary ever collapsed (`p = 0`) the string
is returned unchanged, else the pieces plus the tail `s[p:]` are joined. -/
def re_tab (s : List Char) : List Char :=
  let r := reTabGo s 8 0
  if r.2 = 0 then s else r.1.flatten ++ s.drop r.2

/-- One line of the buffer: the edit widget's text (tabs expanded for
display), the raw line as read from the source (`edit.original_text`),
and the cursor position. -/
structure LineRec where
  edit_text : List Char
  original_text : List Char
  edit_pos : Nat
deriving DecidableEq, Repr

/-- The record built by `read_next_line` for a raw source line `l`:
display text is `l.expandtabs()`, cursor at 0, original text `l`. -/
def mkRec (l : List Char) : LineRec :=
  { edit_text := expandtabs l, original_text := l, edit_pos := 0 }

/-- urwid `Edit.set_edit_text`: replaces the text and clamps the cursor
to the new length. -/
def setEditText (r : LineRec) (t : List Char) : LineRec :=
  { r with edit_text := t, edit_pos := min r.edit_pos t.length }

/-- urwid `Edit.set_edit_pos`: move the cursor, clamped to `[0, len]`. -/
def setEditPos (r : LineRec) (p : Nat) : LineRec :=
  { r with edit_pos := min p r.edit_text.length }

/-- The record built by `paste_from_clipboard` for a clipboard entry:
a fresh widget holding the entry's edit text, `original_text = ""`,
cursor at the end (urwid's default `edit_pos`). -/
def mkPasted (r : LineRec) : LineRec :=
  { edit_text := r.edit_text, original_text := [], edit_pos := r.edit_text.length }

/-- The `LineWalker` state: materialized lines, the open file's remaining
contents (`none` once `self.file = None`), the focus index (a Python int),
and the clipboard (`None` until first cut). -/
structure State where
  lines : List LineRec
  file : Option (List Char)
  focus : Int
  clipboard : Option (List LineRec)
deriving DecidableEq, Repr

/-- Python text-mode `file.readline()`: the chunk up to and including the
first `'\n'` (the whole remainder if none), plus the rest. -/
def pyReadline : List Char → List Char × List Char
  | [] => ([], [])
  | c :: cs =>
    if c = '\n' then (['\n'], cs)
    else
      let r := pyReadline cs
      (c :: r.1, r.2)

/-- `LineWalker.read_next_line` (src/xo/main.py:87-107) for an open file
with remaining contents `f`: if the read returns no data or data without a
trailing `'\n'`, the file is closed and the raw data kept; otherwise the
single trailing terminator is trimmed.  The new record is appended and the
(stripped) line returned. -/
def readNextLineF (f : List Char) (s : State) : List Char × State :=
  let p := pyReadline f
  if p.1 = [] ∨ p.1.getLast? ≠ some '\n' then
    (p.1, { s with file := none, lines := s.lines ++ [mkRec p.1] })
  else
    (p.1.dropLast, { s with file := some p.2, lines := s.lines ++ [mkRec p.1.dropLast] })

/-- Resolve a Python sequence index (negative counts from the end):
`some j` with `j` a valid `Nat` index, `none` for `IndexError`. -/
def pyIdx? (n : Nat) (i : Int) : Option Nat :=
  if 0 ≤ i then (if i < (n : Int) then some i.toNat else none)
  else (if 0 ≤ i + (n : Int) then some (i + (n : Int)).toNat else none)

/-- Python `l[i]` (with negative indexing); `none` models `IndexError`. -/
def pyGet (l : List α) (i : Int) : Option α :=
  match pyIdx? l.length i with
  | some j => l[j]?
  | none => none

/-- Write back at Python index `i`; models mutating the object obtained
from `l[i]`, so callers only use it with an in-range index. -/
def pySet (l : List α) (i : Int) (x : α) : List α :=
  match pyIdx? l.length i with
  | some j => l.set j x
  | none => l

/-- Python `del l[i]`; `none` models `IndexError`. -/
def pyDel (l : List α) (i : Int) : Option (List α) :=
  match pyIdx? l.length i with
  | some j => some (l.eraseIdx j)
  | none => none

/-- Python `l.pop(i)`; `none` models `IndexError`. -/
def pyPop (l : List α) (i : Int) : Option (α × List α) :=
  match pyIdx? l.length i with
  | some j => (l[j]?).map (fun x => (x, l.eraseIdx j))
  | none => none

/-- Python `l.insert(i, x)`: clamps `i` into `[0, len]` (negative counts
from the end). -/
def pyInsert (l : List α) (i : Int) (x : α) : List α :=
  let j := if i < 0 then (max ((l.length : Int) + i) 0).toNat else min i.toNat l.length
  l.insertIdx j x

/-- `LineWalker._get_at_pos` (src/xo/main.py:110-129).  `.error ()` models
the failing `assert pos == len(self.lines)` on an out-of-order request;
`.ok (none, _)` is the "no line" sentinel `(None, None)`. -/
def getAtPos (s : State) (pos : Int) : Except Unit (Option (LineRec × Int) × State) :=
  if pos < 0 then
    -- line 0 is the start of the file, no more above
    .ok (none, s)
  else if _h : pos.toNat < s.lines.length then
    -- we have that line so return it
    .ok (some (s.lines[pos.toNat], pos), s)
  else
    match s.file with
    | none =>
      -- file is closed, so there are no more lines
      .ok (none, s)
    | some f =>
      if pos = (s.lines.length : Int) then
        let r := readNextLineF f s
        .ok (some (mkRec r.1, pos), r.2)
      else
        .error ()

/-- `LineWalker.set_focus` (the `_modified` notification is external UI). -/
def setFocus (s : State) (f : Int) : State :=
  { s with focus := f }

/-- `LineWalker.split_focus` (src/xo/main.py:131-141): divide the focused
widget at the cursor; the right half is a fresh record with
`original_text = ""` and cursor 0, inserted at `focus + 1`. -/
def splitFocus (s : State) : Option State :=
  match pyIdx? s.lines.length s.focus with
  | none => none
  | some j =>
    match s.lines[j]? with
    | none => none
    | some focusRec =>
      let pos := focusRec.edit_pos
      let newRec : LineRec :=
        { edit_text := focusRec.edit_text.drop pos, original_text := [], edit_pos := 0 }
      let lines₁ := s.lines.set j (setEditText focusRec (focusRec.edit_text.take pos))
      some { s with lines := pyInsert lines₁ (s.focus + 1) newRec }

/-- `LineWalker.combine_focus_with_prev` (src/xo/main.py:143-155):
`get_prev` is `_get_at_pos (focus - 1)`; `None` means already at the top. -/
def combineFocusWithPrev (s : State) : Except Unit State :=
  match getAtPos s (s.focus - 1) with
  | .error e => .error e
  | .ok (none, s₁) => .ok s₁
  | .ok (some (above, _), s₁) =>
    match pyGet s₁.lines s₁.focus with
    | none => .error ()
    | some focusRec =>
      let above₁ := setEditText (setEditPos above above.edit_text.length)
        (above.edit_text ++ focusRec.edit_text)
      let lines₁ := pySet s₁.lines (s₁.focus - 1) above₁
      match pyDel lines₁ s₁.focus with
      | none => .error ()
      | some lines₂ => .ok { s₁ with lines := lines₂, focus := s₁.focus - 1 }

/-- `LineWalker.combine_focus_with_next` (src/xo/main.py:157-167):
`get_next` is `_get_at_pos (focus + 1)` and may pull one line from the
source; `None` means already at the bottom. -/
def combineFocusWithNext (s : State) : Except Unit State :=
  match getAtPos s (s.focus + 1) with
  | .error e => .error e
  | .ok (none, s₁) => .ok s₁
  | .ok (some (below, _), s₁) =>
    match pyGet s₁.lines s₁.focus with
    | none => .error ()
    | some focusRec =>
      let lines₁ := pySet s₁.lines s₁.focus
        (setEditText focusRec (focusRec.edit_text ++ below.edit_text))
      match pyDel lines₁ (s₁.focus + 1) with
      | none => .error ()
      | some lines₂ => .ok { s₁ with lines := lines₂ }

/-- `LineWalker.get_coords` (src/xo/main.py:169-172): 1-indexed line and
column of the focus; `none` models the `IndexError` of `self.lines[self.focus]`. -/
def getCoords (s : State) : Option (Int × Nat) :=
  match pyGet s.lines s.focus with
  | none => none
  | some r => some (s.focus + 1, r.edit_pos + 1)

/-- `LineWalker.cut_to_clipboard` (src/xo/main.py:177-185): pop the focused
line onto the clipboard (created if absent); if the popped line was the
last, move the focus up by one. -/
def cutToClipboard (s : State) : Option State :=
  let cb := s.clipboard.getD []
  match pyPop s.lines s.focus with
  | none => none
  | some (rec, rest) =>
    let f := if s.focus = (rest.length : Int) then s.focus - 1 else s.focus
    some { s with lines := rest, clipboard := some (cb ++ [rec]), focus := f }

/-- `LineWalker.paste_from_clipboard` (src/xo/main.py:187-197): insert
fresh copies of the clipboard entries, iterating the clipboard reversed and
inserting each at `self.focus`; focus advances by the clipboard length. -/
def pasteFromClipboard (s : State) : State :=
  match s.clipboard with
  | none => s
  | some cb =>
    let lines₁ := cb.reverse.foldl (fun acc r => pyInsert acc s.focus (mkPasted r)) s.lines
    { s with lines := lines₁, focus := s.focus + (cb.length : Int) }

/-- `LineWalker.clear_clipboard` (src/xo/main.py:199-201). -/
def clearClipboard (s : State) : State :=
  { s with clipboard := none }

/-- The per-line emission test of `EditDisplay.save_file`
(src/xo/main.py:303-308): the original raw line if
`original_text.expandtabs() == edit_text`, else the current edit text. -/
def emitLine (r : LineRec) : List Char :=
  if expandtabs r.original_text = r.edit_text then r.original_text else r.edit_text

/-- Termination measure for the save loop: remaining open-file length. -/
def fileFuel (s : State) : Nat :=
  match s.file with
  | none => 0
  | some f => f.length + 1

/-- The `while walk.file is not None: l.append(walk.read_next_line())` loop
of `save_file` (src/xo/main.py:311-312): the raw lines pulled, and the
state after (each pulled line is also appended to `lines`). -/
def saveLoop (s : State) : List (List Char) × State :=
  match h : s.file with
  | none => ([], s)
  | some f =>
    let r := readNextLineF f s
    let r₂ := saveLoop r.2
    (r.1 :: r₂.1, r₂.2)
termination_by fileFuel s
decreasing_by
  have hap : ∀ g : List Char, (pyReadline g).1.length + (pyReadline g).2.length = g.length := by
    intro g
    induction g with
    | nil => simp [pyReadline]
    | cons c cs ih =>
      by_cases hc : c = '\n' <;> simp [pyReadline, hc] <;> omega
  unfold readNextLineF
  by_cases hb : (pyReadline f).1 = [] ∨ (pyReadline f).1.getLast? ≠ some '\n'
  · simp [fileFuel, h, hb]
  · have h1 : (pyReadline f).1 ≠ [] := by
      intro he
      exact hb (Or.inl he)
    have h2 : 0 < (pyReadline f).1.length := List.length_pos.mpr h1
    have h3 := hap f
    simp [fileFuel, h, hb]
    omega

/-- The line list written by `save_file`: materialized lines through the
unmodified-line test, then the raw tail pulled from the source. -/
def saveList (s : State) : List (List Char) :=
  s.lines.map emitLine ++ (saveLoop s).1

/-- The `prefix` write loop of `save_file` (src/xo/main.py:317-320): lines
joined by a single `'\n'`, nothing after the last line. -/
def joinLines : List (List Char) → List Char
  | [] => []
  | [x] => x
  | x :: y :: t => x ++ '\n' :: joinLines (y :: t)

/-- `EditDisplay.save_file` (src/xo/main.py:298-320): the byte stream
written to disk, and the walker state after the save. -/
def saveFile (s : State) : List Char × State :=
  (joinLines (saveList s), (saveLoop s).2)

/-- `LineWalker.__init__` over a source with contents `content` (the lexer
probe re-seeks to 0, so the whole contents remain to be read). -/
def initState (content : List Char) : State :=
  { lines := [], file := some content, focus := 0, clipboard := none }

/-- One lazy materialization step: pull the next source line if the file
is still open (the effect on the walker of any `get_at` that grows the
buffer); the identity once the source is exhausted. -/
def matStep (s : State) : State :=
  match s.file with
  | none => s
  | some f => (readNextLineF f s).2

/-- Modelled from the spec (§4.5): the per-line emission rule claimed by
the specification — "emit `original_text` verbatim exactly when
`re_tab(display_text)` equals `original_text`, otherwise `display_text`".
Used only to compare against the code's actual rule `emitLine`. -/
def specEmitLine (r : LineRec) : List Char :=
  if re_tab r.edit_text = r.original_text then r.original_text else r.edit_text

/-- Modelled from the spec (§8, idempotence property): "generated strings
with tabs only at column-aligned positions" — every tab sits at a column
divisible by 8 (each such tab expands to a full 8-column stop). -/
def tabsAligned (col : Nat) : List Char → Bool
  | [] => true
  | c :: cs =>
    if c = '\t' then decide (col % 8 = 0) && tabsAligned (col + 8) cs
    else tabsAligned (col + 1) cs

/-- Generator for the amended idempotence property: segments joined by
single tabs, `mkOrig [v₁, ..., vₙ] w = v₁ ⧺ '\t' ⧺ ... ⧺ vₙ ⧺ '\t' ⧺ w`. -/
def mkOrig : List (List Char) → List Char → List Char
  | [], w => w
  | v :: vs, w => v ++ '\t' :: mkOrig vs w

/-! ### Basic lemmas about the Python primitives -/

theorem pyReadline_append (f : List Char) : (pyReadline f).1 ++ (pyReadline f).2 = f := by
  induction f with
  | nil => simp [pyReadline]
  | cons c cs ih =>
    by_cases hc : c = '\n' <;> simp [pyReadline, hc, ih]

theorem pyReadline_cases (f : List Char) :
    (pyReadline f).1.getLast? = some '\n' ∨ ((pyReadline f).2 = [] ∧ (pyReadline f).1 = f) := by
  induction f with
  | nil => simp [pyReadline]
  | cons c cs ih =>
    by_cases hc : c = '\n'
    · simp [pyReadline, hc]
    · rcases ih with h | ⟨h1, h2⟩
      · left
        rcases he : (pyReadline cs).1 with _ | ⟨d, ds⟩
        · simp [he] at h
        · simp only [pyReadline]
          rw [if_neg hc]
          simp only [he]
          rw [List.getLast?_cons_cons]
          rw [he] at h
          exact h
      · right
        simp [pyReadline, hc, h1, h2]

theorem pyReadline_no_newline (f : List Char) (h : '\n' ∉ f) : pyReadline f = (f, []) := by
  induction f with
  | nil => simp [pyReadline]
  | cons c cs ih =>
    have hc : c ≠ '\n' := by
      intro he
      exact h (he ▸ List.mem_cons_self c cs)
    have hcs : '\n' ∉ cs := fun hm => h (List.mem_cons_of_mem c hm)
    simp [pyReadline, hc, ih hcs]

theorem pyReadline_newline (pre rest : List Char) (h : '\n' ∉ pre) :
    pyReadline (pre ++ '\n' :: rest) = (pre ++ ['\n'], rest) := by
  induction pre with
  | nil => simp [pyReadline]
  | cons c cs ih =>
    have hc : c ≠ '\n' := by
      intro he
      exact h (he ▸ List.mem_cons_self c cs)
    have hcs : '\n' ∉ cs := fun hm => h (List.mem_cons_of_mem c hm)
    simp [pyReadline, hc, ih hcs]

theorem getElem?_mid (b : List α) (x : α) (a : List α) : (b ++ x :: a)[b.length]? = some x := by
  induction b with
  | nil => simp
  | cons y ys ih => simpa using ih

theorem set_mid (b : List α) (x y : α) (a : List α) :
    (b ++ x :: a).set b.length y = b ++ y :: a := by
  induction b with
  | nil => simp
  | cons z zs ih => simpa using ih

theorem erase_mid (b : List α) (x : α) (a : List α) :
    (b ++ x :: a).eraseIdx b.length = b ++ a := by
  induction b with
  | nil => simp
  | cons z zs ih => simpa using ih

theorem insertIdx_mid (b : List α) (y : α) (rest : List α) :
    (b ++ rest).insertIdx b.length y = b ++ y :: rest := by
  induction b with
  | nil => simp
  | cons z zs ih => simpa [List.insertIdx] using ih

theorem pyIdx?_natCast (n k : Nat) : pyIdx? n (k : Int) = if k < n then some k else none := by
  simp [pyIdx?]

theorem getElem_mid (b : List α) (x : α) (a : List α) (h : b.length < (b ++ x :: a).length) :
    (b ++ x :: a)[b.length] = x := by
  induction b with
  | nil => simp
  | cons y ys ih => simpa using ih (by simp)

theorem pyGet_mid (b : List α) (x : α) (a : List α) :
    pyGet (b ++ x :: a) (b.length : Int) = some x := by
  have hlt : b.length < (b ++ x :: a).length := by simp
  simp [pyGet, pyIdx?_natCast, hlt, getElem_mid]

/-! ### Lemmas about reading and the save loop -/

theorem readNextLineF_terminal (f : List Char) (s : State) (h : '\n' ∉ f) :
    readNextLineF f s = (f, { s with file := none, lines := s.lines ++ [mkRec f] }) := by
  have hp := pyReadline_no_newline f h
  have hcond : f = [] ∨ f.getLast? ≠ some '\n' := by
    rcases f with _ | ⟨c, cs⟩
    · exact Or.inl rfl
    · right
      intro hg
      exact h (List.mem_of_mem_getLast? hg)
  unfold readNextLineF
  rw [hp]
  simp only [if_pos hcond]

theorem readNextLineF_newline (pre rest : List Char) (s : State) (h : '\n' ∉ pre) :
    readNextLineF (pre ++ '\n' :: rest) s =
      (pre, { s with file := some rest, lines := s.lines ++ [mkRec pre] }) := by
  have hp := pyReadline_newline pre rest h
  have hcond : ¬(pre ++ ['\n'] = [] ∨ (pre ++ ['\n']).getLast? ≠ some '\n') := by
    simp [List.getLast?_concat]
  unfold readNextLineF
  rw [hp]
  simp only [if_neg hcond, List.dropLast_concat]

theorem readNextLineF_lines (f : List Char) (s : State) :
    (readNextLineF f s).2.lines = s.lines ++ [mkRec (readNextLineF f s).1] := by
  by_cases hb : (pyReadline f).1 = [] ∨ (pyReadline f).1.getLast? ≠ some '\n' <;>
    simp [readNextLineF, hb]

theorem readNextLineF_focus (f : List Char) (s : State) :
    (readNextLineF f s).2.focus = s.focus ∧ (readNextLineF f s).2.clipboard = s.clipboard := by
  by_cases hb : (pyReadline f).1 = [] ∨ (pyReadline f).1.getLast? ≠ some '\n' <;>
    simp [readNextLineF, hb]

theorem newline_split (f : List Char) :
    '\n' ∉ f ∨ ∃ pre rest, f = pre ++ '\n' :: rest ∧ '\n' ∉ pre := by
  induction f with
  | nil => exact Or.inl (by simp)
  | cons c cs ih =>
    by_cases hc : c = '\n'
    · exact Or.inr ⟨[], cs, by simp [hc], by simp⟩
    · rcases ih with h | ⟨pre, rest, he, hpre⟩
      · left
        simp only [List.mem_cons, not_or]
        exact ⟨fun he => hc he.symm, h⟩
      · right
        refine ⟨c :: pre, rest, by simp [he], ?_⟩
        simp only [List.mem_cons, not_or]
        exact ⟨fun he => hc he.symm, hpre⟩

theorem saveLoop_closed (s : State) (h : s.file = none) : saveLoop s = ([], s) := by
  unfold saveLoop
  split <;> simp_all

theorem saveLoop_open (s : State) (f : List Char) (h : s.file = some f) :
    saveLoop s = ((readNextLineF f s).1 :: (saveLoop (readNextLineF f s).2).1,
                  (saveLoop (readNextLineF f s).2).2) := by
  conv_lhs => rw [saveLoop]
  split <;> simp_all

theorem joinLines_saveLoop_aux :
    ∀ (n : Nat) (f : List Char), f.length ≤ n →
      ∀ s : State, s.file = some f → joinLines (saveLoop s).1 = f := by
  intro n
  induction n with
  | zero =>
    intro f hlen s hf
    have hf0 : f = [] := by
      cases f
      · rfl
      · simp at hlen
    subst hf0
    rw [saveLoop_open s [] hf, readNextLineF_terminal [] s (by simp)]
    rw [saveLoop_closed _ rfl]
    rfl
  | succ n ih =>
    intro f hlen s hf
    rcases newline_split f with h | ⟨pre, rest, he, hpre⟩
    · rw [saveLoop_open s f hf, readNextLineF_terminal f s h, saveLoop_closed _ rfl]
      rfl
    · subst he
      rw [saveLoop_open s _ hf, readNextLineF_newline pre rest s hpre]
      have hlen₂ : rest.length ≤ n := by
        simp only [List.length_append, List.length_cons] at hlen
        omega
      -- the tail of the file round-trips by induction
      have h1 := ih rest hlen₂ { lines := s.lines ++ [mkRec pre], file := some rest, focus := s.focus, clipboard := s.clipboard } rfl
      have hne : (saveLoop { lines := s.lines ++ [mkRec pre], file := some rest, focus := s.focus, clipboard := s.clipboard }).1 ≠ [] := by
        rw [saveLoop_open _ rest rfl]
        simp
      rcases hL : (saveLoop { lines := s.lines ++ [mkRec pre], file := some rest, focus := s.focus, clipboard := s.clipboard }).1 with _ | ⟨y, t⟩
      · exact absurd hL hne
      · simp only [hL] at h1 ⊢
        simp only [joinLines, h1]

theorem joinLines_saveLoop (s : State) (f : List Char) (h : s.file = some f) :
    joinLines (saveLoop s).1 = f :=
  joinLines_saveLoop_aux f.length f le_rfl s h

theorem emitLine_mkRec (l : List Char) : emitLine (mkRec l) = l := by
  simp [emitLine, mkRec]

theorem saveList_matStep (s : State) : saveList (matStep s) = saveList s := by
  unfold matStep
  cases hf : s.file with
  | none => rfl
  | some f =>
    unfold saveList
    rw [saveLoop_open s f hf, readNextLineF_lines]
    simp [emitLine_mkRec]

theorem joinLines_append_last (ls : List (List Char)) (x : List Char) :
    ∃ p, joinLines (ls ++ [x]) = p ++ x := by
  induction ls with
  | nil => exact ⟨[], rfl⟩
  | cons a t ih =>
    rcases t with _ | ⟨b, t'⟩
    · exact ⟨a ++ ['\n'], by simp [joinLines]⟩
    · rcases ih with ⟨p, hp⟩
      refine ⟨a ++ '\n' :: p, ?_⟩
      simp only [List.cons_append, joinLines] at hp ⊢
      simp [hp]

/-- Claim C2: a buffer created over a source and never edited saves back the
exact original contents (lazily materializing any number `n` of lines first),
and the emitted lines are joined by single terminators with nothing appended
after the final line. -/
theorem c2_round_trip :
    (∀ (content : List Char) (n : Nat),
      (saveFile (matStep^[n] (initState content))).1 = content) ∧
    (∀ (ls : List (List Char)) (x : List Char), x ≠ [] → '\n' ∉ x →
      (joinLines (ls ++ [x])).getLast? ≠ some '\n') := by
  constructor
  · intro content n
    have hsl : saveList (matStep^[n] (initState content)) = saveList (initState content) := by
      induction n with
      | zero => rfl
      | succ n ih => rw [Function.iterate_succ_apply', saveList_matStep, ih]
    show joinLines (saveList (matStep^[n] (initState content))) = content
    rw [hsl]
    have hinit : saveList (initState content) = (saveLoop (initState content)).1 := by
      simp [saveList, initState]
    rw [hinit, joinLines_saveLoop _ content rfl]
  · intro ls x hx hnl
    rcases joinLines_append_last ls x with ⟨p, hp⟩
    rw [hp, List.getLast?_append_of_ne_nil p hx]
    intro hg
    exact hnl (List.mem_of_mem_getLast? hg)

/-- Witness for C2 at a concrete two-line source with no trailing terminator. -/
theorem c2_witness :
    (saveFile (matStep^[2] (initState ['a', '\n', 'b']))).1 = ['a', '\n', 'b'] ∧
    (joinLines ([['x']] ++ [['y']])).getLast? ≠ some '\n' :=
  ⟨c2_round_trip.1 ['a', '\n', 'b'] 2,
   c2_round_trip.2 [['x']] ['y'] (by decide) (by decide)⟩

/-! ### Claim C1: the unmodified-line test used by save -/

/-- Claim C1 counterexample: for the unedited source line `"a \tb"` the save
routine emits the original bytes verbatim (the code's test
`original_text.expandtabs() == edit_text` holds), while the claimed rule
`re_tab(display_text) == original_text` fails — `re_tab` collapses the
space-then-tab run to a bare tab — so the claimed rule would emit the
display text instead.  The two rules disagree at this record. -/
theorem c1_counterexample :
    (saveFile { lines := [mkRec ['a', ' ', '\t', 'b']], file := none, focus := 0, clipboard := none }).1 = ['a', ' ', '\t', 'b'] ∧
    specEmitLine (mkRec ['a', ' ', '\t', 'b']) = ['a', ' ', ' ', ' ', ' ', ' ', ' ', ' ', 'b'] ∧
    (saveFile { lines := [mkRec ['a', ' ', '\t', 'b']], file := none, focus := 0, clipboard := none }).1 ≠ specEmitLine (mkRec ['a', ' ', '\t', 'b']) := by
  have hloop := saveLoop_closed { lines := [mkRec ['a', ' ', '\t', 'b']], file := none, focus := 0, clipboard := none } rfl
  have hsave : (saveFile { lines := [mkRec ['a', ' ', '\t', 'b']], file := none, focus := 0, clipboard := none }).1 = ['a', ' ', '\t', 'b'] := by
    show joinLines (saveList _) = _
    unfold saveList
    rw [hloop]
    simp [emitLine_mkRec, joinLines]
  have he : expandtabs (['a', ' ', '\t', 'b'] : List Char) = ['a', ' ', ' ', ' ', ' ', ' ', ' ', ' ', 'b'] := by decide
  have hinner : reTabGo (['a', ' ', ' ', ' ', ' ', ' ', ' ', ' ', 'b'] : List Char) 16 8 = ([], 8) := by
    rw [reTabGo.eq_def]
    norm_num
  have hgo : reTabGo (['a', ' ', ' ', ' ', ' ', ' ', ' ', ' ', 'b'] : List Char) 8 0 = ([['a', '\t']], 8) := by
    rw [reTabGo.eq_def]
    norm_num [hinner]
    decide
  have hrt : re_tab (['a', ' ', ' ', ' ', ' ', ' ', ' ', ' ', 'b'] : List Char) = ['a', '\t', 'b'] := by
    simp [re_tab, hgo]
  have hspec : specEmitLine (mkRec ['a', ' ', '\t', 'b']) = ['a', ' ', ' ', ' ', ' ', ' ', ' ', ' ', 'b'] := by
    simp [specEmitLine, mkRec, he, hrt]
  refine ⟨hsave, hspec, ?_⟩
  rw [hsave, hspec]
  decide

/-- Claim C1 amended: every materialized line is emitted as `original_text`
verbatim exactly when `original_text.expandtabs()` equals the current
`display_text` (the code's tab/space-equivalence test, expanding the
original — not `re_tab` of the display, and not raw equality), and as the
current `display_text` otherwise. -/
theorem c1_amended (s : State) (k : Nat) (h : k < s.lines.length) :
    (saveList s)[k]? = some (if expandtabs s.lines[k].original_text = s.lines[k].edit_text
      then s.lines[k].original_text else s.lines[k].edit_text) := by
  have hk : k < (s.lines.map emitLine).length := by simpa using h
  unfold saveList
  rw [List.getElem?_append, if_pos hk]
  simp [List.getElem?_eq_getElem hk, emitLine]

/-- Witness for C1 (amended) at a one-line buffer. -/
theorem c1_witness :
    (saveList { lines := [mkRec ['x']], file := none, focus := 0, clipboard := none })[0]? =
      some (if expandtabs (mkRec ['x']).original_text = (mkRec ['x']).edit_text
        then (mkRec ['x']).original_text else (mkRec ['x']).edit_text) :=
  c1_amended { lines := [mkRec ['x']], file := none, focus := 0, clipboard := none } 0
    (by decide)

/-! ### Claims C6, C7, C9: navigation boundaries and the lazy source -/

theorem getAtPos_closed (s : State) (pos : Int) (hf : s.file = none)
    (hp : (s.lines.length : Int) ≤ pos) : getAtPos s pos = .ok (none, s) := by
  have h0 : ¬ pos < 0 := by
    have := Int.natCast_nonneg s.lines.length
    omega
  have h1 : ¬ pos.toNat < s.lines.length := by omega
  unfold getAtPos
  rw [if_neg h0, dif_neg h1, hf]

/-- Claim C6 counterexample: with one materialized line and the source still
open, `get_at 2` (more than one past the end) fails the
`assert pos == len(self.lines)` instead of returning the "no line" sentinel —
the claim's unconditional "position greater than the number of materialized
lines returns no line" is false for an open source. -/
theorem c6_counterexample :
    getAtPos { lines := [mkRec ['a']], file := some ['b'], focus := 0, clipboard := none } 2 = .error () ∧
    ∀ res : Option (LineRec × Int) × State,
      getAtPos { lines := [mkRec ['a']], file := some ['b'], focus := 0, clipboard := none } 2 ≠ .ok res := by
  have h1 : getAtPos { lines := [mkRec ['a']], file := some ['b'], focus := 0, clipboard := none } 2 = .error () := by
    unfold getAtPos
    norm_num
  refine ⟨h1, fun res h => ?_⟩
  rw [h1] at h
  exact Except.noConfusion h

/-- Claim C6 amended: `get_at` returns the "no line" sentinel with the state
unchanged for a negative position, and for any position at or past the
materialized lines once the source is exhausted; for an open source a
position more than one past the end is a fatal assert, not a sentinel. -/
theorem c6_amended (s : State) (pos : Int) :
    (pos < 0 → getAtPos s pos = .ok (none, s)) ∧
    (s.file = none → (s.lines.length : Int) ≤ pos → getAtPos s pos = .ok (none, s)) := by
  constructor
  · intro h
    unfold getAtPos
    rw [if_pos h]
  · exact getAtPos_closed s pos

/-- Witness for C6 (amended) at concrete boundary requests. -/
theorem c6_witness :
    getAtPos { lines := [mkRec ['a']], file := none, focus := 0, clipboard := none } (-1) =
      .ok (none, { lines := [mkRec ['a']], file := none, focus := 0, clipboard := none }) ∧
    getAtPos { lines := [mkRec ['a']], file := none, focus := 0, clipboard := none } 3 =
      .ok (none, { lines := [mkRec ['a']], file := none, focus := 0, clipboard := none }) :=
  ⟨(c6_amended { lines := [mkRec ['a']], file := none, focus := 0, clipboard := none } (-1)).1 (by decide),
   (c6_amended { lines := [mkRec ['a']], file := none, focus := 0, clipboard := none } 3).2 rfl (by decide)⟩

/-- Claim C7: `read_next_line` on an open source — data with no trailing
terminator (including no data at all) closes the source on that call and is
returned exactly as read; a terminator-ended chunk has exactly that one
terminator stripped and leaves the source open on the rest; and once the
source is closed every further `get_at` at or past the end is the "no line"
sentinel (exhaustion is permanent for the caller). -/
theorem c7_read_next_line (s : State) (f : List Char) (_h : s.file = some f) :
    ('\n' ∉ f →
      readNextLineF f s = (f, { s with file := none, lines := s.lines ++ [mkRec f] })) ∧
    (∀ pre rest, f = pre ++ '\n' :: rest → '\n' ∉ pre →
      readNextLineF f s = (pre, { s with file := some rest, lines := s.lines ++ [mkRec pre] })) ∧
    (∀ (t : State) (pos : Int), t.file = none → (t.lines.length : Int) ≤ pos →
      getAtPos t pos = .ok (none, t)) := by
  refine ⟨fun hn => readNextLineF_terminal f s hn, fun pre rest he hp => ?_,
    fun t pos => getAtPos_closed t pos⟩
  subst he
  exact readNextLineF_newline pre rest s hp

/-- Witness for C7 at a concrete two-line source and a terminator-free tail. -/
theorem c7_witness :
    readNextLineF ['a', '\n', 'b'] { lines := [], file := some ['a', '\n', 'b'], focus := 0, clipboard := none } =
      (['a'], { lines := [] ++ [mkRec ['a']], file := some ['b'], focus := 0, clipboard := none }) ∧
    readNextLineF ['x'] { lines := [], file := some ['x'], focus := 0, clipboard := none } =
      (['x'], { lines := [] ++ [mkRec ['x']], file := none, focus := 0, clipboard := none }) :=
  ⟨(c7_read_next_line { lines := [], file := some ['a', '\n', 'b'], focus := 0, clipboard := none }
      ['a', '\n', 'b'] rfl).2.1 ['a'] ['b'] rfl (by decide),
   (c7_read_next_line { lines := [], file := some ['x'], focus := 0, clipboard := none }
      ['x'] rfl).1 (by decide)⟩

/-- Claim C9: reading the last content line of a terminator-ended source
leaves the source open with nothing left; the next `get_at` one past the end
then does not return the sentinel — it appends a record with empty display
text and empty original text, returns it, and closes the source on the same
call. -/
theorem c9_trailing_newline :
    (∀ (s : State) (pre : List Char), '\n' ∉ pre →
      readNextLineF (pre ++ ['\n']) s =
        (pre, { s with file := some [], lines := s.lines ++ [mkRec pre] })) ∧
    (∀ s : State, s.file = some [] →
      getAtPos s (s.lines.length : Int) =
        .ok (some (mkRec [], (s.lines.length : Int)),
             { s with file := none, lines := s.lines ++ [mkRec []] })) ∧
    mkRec [] = { edit_text := [], original_text := [], edit_pos := 0 } := by
  refine ⟨fun s pre hp => readNextLineF_newline pre [] s hp, fun s hf => ?_, by decide⟩
  have h0 : ¬ ((s.lines.length : Int) < 0) := by
    have := Int.natCast_nonneg s.lines.length
    omega
  have h1 : ¬ ((s.lines.length : Int).toNat < s.lines.length) := by simp
  unfold getAtPos
  rw [if_neg h0, dif_neg h1, hf]
  simp [readNextLineF_terminal [] s (by simp)]

/-- Witness for C9 at a one-line terminator-ended source. -/
theorem c9_witness :
    readNextLineF (['a'] ++ ['\n']) { lines := [], file := some ['a', '\n'], focus := 0, clipboard := none } =
      (['a'], { lines := [] ++ [mkRec ['a']], file := some [], focus := 0, clipboard := none }) ∧
    getAtPos { lines := [mkRec ['a']], file := some [], focus := 0, clipboard := none } 1 =
      .ok (some (mkRec [], 1), { lines := [mkRec ['a']] ++ [mkRec []], file := none, focus := 0, clipboard := none }) :=
  ⟨c9_trailing_newline.1 { lines := [], file := some ['a', '\n'], focus := 0, clipboard := none } ['a'] (by decide),
   c9_trailing_newline.2.1 { lines := [mkRec ['a']], file := some [], focus := 0, clipboard := none } rfl⟩

/-! ### Claim C10: cutting the only line -/

/-- Claim C10: cutting the focused line of a one-line buffer empties
`lines` and sets `focus` to `-1` — outside the documented valid range
`[0, len(lines))` — and a subsequent `get_coords` fails (the Python
`self.lines[self.focus]` raises `IndexError` on the empty list) instead of
returning a coordinate pair. -/
theorem c10_cut_last (s : State) (r : LineRec) (hl : s.lines = [r]) (hfoc : s.focus = 0) :
    cutToClipboard s = some { lines := [], file := s.file, focus := -1, clipboard := some (s.clipboard.getD [] ++ [r]) } ∧
    getCoords { lines := [], file := s.file, focus := -1, clipboard := some (s.clipboard.getD [] ++ [r]) } = none := by
  constructor
  · unfold cutToClipboard
    rw [hl, hfoc]
    have hpop : pyPop [r] (0 : Int) = some (r, []) := by
      simp [pyPop, pyIdx?]
    rw [hpop]
    simp
  · simp [getCoords, pyGet, pyIdx?]

/-- Witness for C10 at a concrete one-line buffer. -/
theorem c10_witness :
    cutToClipboard { lines := [mkRec ['a']], file := none, focus := 0, clipboard := none } =
      some { lines := [], file := none, focus := -1, clipboard := some ((none : Option (List LineRec)).getD [] ++ [mkRec ['a']]) } ∧
    getCoords { lines := [], file := none, focus := -1, clipboard := some ((none : Option (List LineRec)).getD [] ++ [mkRec ['a']]) } = none :=
  c10_cut_last { lines := [mkRec ['a']], file := none, focus := 0, clipboard := none } (mkRec ['a']) rfl rfl

/-! ### Claim C3: cut followed by paste -/

theorem pyPop_mid (b : List α) (x : α) (a : List α) :
    pyPop (b ++ x :: a) (b.length : Int) = some (x, b ++ a) := by
  have hlt : b.length < (b ++ x :: a).length := by simp
  simp [pyPop, pyIdx?_natCast, hlt, erase_mid]
  exact getElem_mid b x a hlt

theorem pyInsert_mid (b : List α) (x : α) (a : List α) :
    pyInsert (b ++ a) (b.length : Int) x = b ++ x :: a := by
  have hle : b.length ≤ (b ++ a).length := by simp
  have h0 : ¬ ((b.length : Int) < 0) := by omega
  unfold pyInsert
  rw [if_neg h0]
  simp [hle, insertIdx_mid]

theorem paste_fold (cb b a : List LineRec) :
    cb.reverse.foldl (fun acc r => pyInsert acc (b.length : Int) (mkPasted r)) (b ++ a) =
      b ++ cb.map mkPasted ++ a := by
  induction cb with
  | nil => simp
  | cons c cs ih =>
    rw [List.reverse_cons, List.foldl_append, ih]
    simp only [List.foldl_cons, List.foldl_nil]
    rw [List.append_assoc, pyInsert_mid b (mkPasted c) (cs.map mkPasted ++ a)]
    simp

/-- Claim C3 counterexample: cutting the focused *last* line of a two-line
buffer moves the focus up by one, so the immediately following paste inserts
before the remaining line — the per-line texts come back in the wrong order,
refuting "for every buffer, cut then paste restores the per-line text". -/
theorem c3_counterexample :
    cutToClipboard { lines := [mkRec ['a'], mkRec ['b']], file := none, focus := 1, clipboard := none } =
      some { lines := [mkRec ['a']], file := none, focus := 0, clipboard := some [mkRec ['b']] } ∧
    (pasteFromClipboard { lines := [mkRec ['a']], file := none, focus := 0, clipboard := some [mkRec ['b']] }).lines.map LineRec.edit_text = [['b'], ['a']] ∧
    ([mkRec ['a'], mkRec ['b']] : List LineRec).map LineRec.edit_text = [['a'], ['b']] ∧
    ([['b'], ['a']] : List (List Char)) ≠ [['a'], ['b']] := by
  refine ⟨by decide, by decide, by decide, by decide⟩

/-- Claim C3 amended: for a buffer with no clipboard whose focus is a valid
line that is not the last line of a multi-line buffer (or the buffer has a
single line), `cut_to_clipboard` then `paste_from_clipboard` restores the
line count and the per-line display text; the clipboard holds the cut line
after the cut and still after the paste (paste does not consume it). -/
theorem c3_amended (s : State) (b : List LineRec) (r : LineRec) (a : List LineRec)
    (hcb : s.clipboard = none) (hl : s.lines = b ++ r :: a) (hf : s.focus = (b.length : Int))
    (hpos : a ≠ [] ∨ b = []) :
    ∃ s₁, cutToClipboard s = some s₁ ∧ s₁.clipboard = some [r] ∧
      (pasteFromClipboard s₁).lines.map LineRec.edit_text = s.lines.map LineRec.edit_text ∧
      (pasteFromClipboard s₁).lines.length = s.lines.length ∧
      (pasteFromClipboard s₁).clipboard = some [r] := by
  by_cases ha : a = []
  · have hb : b = [] := by
      rcases hpos with h | h
      · exact absurd ha h
      · exact h
    subst ha hb
    simp only [List.nil_append] at hl hf
    refine ⟨{ lines := [], file := s.file, focus := -1, clipboard := some [r] }, ?_, rfl, ?_, ?_, ?_⟩
    · unfold cutToClipboard
      rw [hl, hf, hcb]
      have hpop : pyPop [r] ((0 : Nat) : Int) = some (r, []) := pyPop_mid [] r []
      simp only [List.length_nil] at hpop ⊢
      rw [hpop]
      simp
    · unfold pasteFromClipboard
      simp [pyInsert, hl, mkPasted]
    · unfold pasteFromClipboard
      simp [pyInsert, hl]
    · unfold pasteFromClipboard
      simp
  · have hfocne : ((b.length : Nat) : Int) ≠ (((b ++ a).length : Nat) : Int) := by
      have : 0 < a.length := List.length_pos.mpr ha
      simp only [List.length_append]
      omega
    refine ⟨{ lines := b ++ a, file := s.file, focus := (b.length : Int), clipboard := some [r] }, ?_, rfl, ?_, ?_, ?_⟩
    · unfold cutToClipboard
      rw [hl, hf, hcb]
      rw [pyPop_mid]
      simp only [Option.getD_none, List.nil_append, if_neg hfocne]
    · unfold pasteFromClipboard
      simp only []
      rw [paste_fold [r] b a]
      simp [hl, mkPasted]
    · unfold pasteFromClipboard
      simp only []
      rw [paste_fold [r] b a]
      simp [hl]
    · unfold pasteFromClipboard
      simp

/-- Witness for C3 (amended): cut then paste at a non-final focus of a
concrete two-line buffer. -/
theorem c3_witness :
    ∃ s₁, cutToClipboard { lines := [mkRec ['a'], mkRec ['b']], file := none, focus := 0, clipboard := none } = some s₁ ∧
      s₁.clipboard = some [mkRec ['a']] ∧
      (pasteFromClipboard s₁).lines.map LineRec.edit_text =
        ([mkRec ['a'], mkRec ['b']] : List LineRec).map LineRec.edit_text ∧
      (pasteFromClipboard s₁).lines.length = ([mkRec ['a'], mkRec ['b']] : List LineRec).length ∧
      (pasteFromClipboard s₁).clipboard = some [mkRec ['a']] :=
  c3_amended { lines := [mkRec ['a'], mkRec ['b']], file := none, focus := 0, clipboard := none }
    [] (mkRec ['a']) [mkRec ['b']] rfl rfl rfl (Or.inl (by decide))

/-! ### Claim C5: split followed by join -/

theorem len_cast_succ (b : List α) (x : α) :
    (((b ++ [x]).length : Nat) : Int) = (b.length : Int) + 1 := by simp

theorem pyGet_mid_succ (b : List α) (x y : α) (a : List α) :
    pyGet (b ++ x :: y :: a) ((b.length : Int) + 1) = some y := by
  have h := pyGet_mid (b ++ [x]) y a
  rw [len_cast_succ] at h
  simpa using h

theorem pySet_mid (b : List α) (x y : α) (a : List α) :
    pySet (b ++ x :: a) (b.length : Int) y = b ++ y :: a := by
  have hlt : b.length < (b ++ x :: a).length := by simp
  simp [pySet, pyIdx?_natCast, hlt, set_mid]

theorem pyDel_mid (b : List α) (x : α) (a : List α) :
    pyDel (b ++ x :: a) (b.length : Int) = some (b ++ a) := by
  have hlt : b.length < (b ++ x :: a).length := by simp
  simp [pyDel, pyIdx?_natCast, hlt, erase_mid]

theorem pyDel_mid_succ (b : List α) (x y : α) (a : List α) :
    pyDel (b ++ x :: y :: a) ((b.length : Int) + 1) = some (b ++ x :: a) := by
  have h := pyDel_mid (b ++ [x]) y a
  rw [len_cast_succ] at h
  simpa using h

theorem pyInsert_mid_succ (b : List α) (x y : α) (a : List α) :
    pyInsert (b ++ x :: a) ((b.length : Int) + 1) y = b ++ x :: y :: a := by
  have h := pyInsert_mid (b ++ [x]) y a
  rw [len_cast_succ] at h
  simpa using h

theorem getAtPos_mid (b : List LineRec) (x : LineRec) (a : List LineRec)
    (fl : Option (List Char)) (fc : Int) (cb : Option (List LineRec)) :
    getAtPos { lines := b ++ x :: a, file := fl, focus := fc, clipboard := cb } (b.length : Int) =
      .ok (some (x, (b.length : Int)), { lines := b ++ x :: a, file := fl, focus := fc, clipboard := cb }) := by
  have h0 : ¬ ((b.length : Int) < 0) := by omega
  have hlt : ((b.length : Int)).toNat < (({ lines := b ++ x :: a, file := fl, focus := fc, clipboard := cb } : State)).lines.length := by
    simp
  unfold getAtPos
  rw [if_neg h0, dif_pos hlt]
  simp [getElem_mid]

theorem splitFocus_mid (b : List LineRec) (F : LineRec) (a : List LineRec)
    (fl : Option (List Char)) (cb : Option (List LineRec)) :
    splitFocus { lines := b ++ F :: a, file := fl, focus := (b.length : Int), clipboard := cb } =
      some { lines := b ++ setEditText F (F.edit_text.take F.edit_pos) :: { edit_text := F.edit_text.drop F.edit_pos, original_text := [], edit_pos := 0 } :: a, file := fl, focus := (b.length : Int), clipboard := cb } := by
  have hlt : b.length < (b ++ F :: a).length := by simp
  unfold splitFocus
  simp only [pyIdx?_natCast, if_pos hlt, getElem?_mid, set_mid]
  rw [pyInsert_mid_succ]

theorem combineNext_mid (b : List LineRec) (F N : LineRec) (a : List LineRec)
    (fl : Option (List Char)) (cb : Option (List LineRec)) :
    combineFocusWithNext { lines := b ++ F :: N :: a, file := fl, focus := (b.length : Int), clipboard := cb } =
      .ok { lines := b ++ setEditText F (F.edit_text ++ N.edit_text) :: a, file := fl, focus := (b.length : Int), clipboard := cb } := by
  have hget := getAtPos_mid (b ++ [F]) N a fl (b.length : Int) cb
  rw [len_cast_succ] at hget
  simp only [List.append_assoc, List.cons_append, List.nil_append] at hget
  unfold combineFocusWithNext
  rw [hget]
  simp only [pyGet_mid, pySet_mid, pyDel_mid_succ]

theorem combinePrev_mid (b : List LineRec) (P F : LineRec) (a : List LineRec)
    (fl : Option (List Char)) (cb : Option (List LineRec)) :
    combineFocusWithPrev { lines := b ++ P :: F :: a, file := fl, focus := (b.length : Int) + 1, clipboard := cb } =
      .ok { lines := b ++ setEditText (setEditPos P P.edit_text.length) (P.edit_text ++ F.edit_text) :: a, file := fl, focus := (b.length : Int), clipboard := cb } := by
  have hsub : ((b.length : Int) + 1 - 1) = (b.length : Int) := by ring
  have hget := getAtPos_mid b P (F :: a) fl ((b.length : Int) + 1) cb
  unfold combineFocusWithPrev
  rw [hsub, hget]
  simp only [pyGet_mid_succ, pySet_mid, pyDel_mid_succ, hsub]

/-- Claim C5 counterexample: with two lines `"a"`, `"bc"`, focus on line 1
and the cursor after `'b'`, `split_focus` followed *immediately* by
`combine_focus_with_prev` joins the left half with the line *above* (focus
is still on the left half), producing lines `"ab"`, `"c"` — no resulting
line's text equals the pre-split focus text `"bc"`, so the prev-join variant
of the claim fails. -/
theorem c5_counterexample :
    splitFocus { lines := [mkRec ['a'], { edit_text := ['b', 'c'], original_text := ['b', 'c'], edit_pos := 1 }], file := none, focus := 1, clipboard := none } =
      some { lines := [mkRec ['a'], { edit_text := ['b'], original_text := ['b', 'c'], edit_pos := 1 }, { edit_text := ['c'], original_text := [], edit_pos := 0 }], file := none, focus := 1, clipboard := none } ∧
    combineFocusWithPrev { lines := [mkRec ['a'], { edit_text := ['b'], original_text := ['b', 'c'], edit_pos := 1 }, { edit_text := ['c'], original_text := [], edit_pos := 0 }], file := none, focus := 1, clipboard := none } =
      .ok { lines := [{ edit_text := ['a', 'b'], original_text := ['a'], edit_pos := 1 }, { edit_text := ['c'], original_text := [], edit_pos := 0 }], file := none, focus := 0, clipboard := none } ∧
    ([{ edit_text := ['a', 'b'], original_text := ['a'], edit_pos := 1 }, { edit_text := ['c'], original_text := [], edit_pos := 0 }] : List LineRec).map LineRec.edit_text = [['a', 'b'], ['c']] ∧
    ¬ (['b', 'c'] ∈ ([['a', 'b'], ['c']] : List (List Char))) := by
  refine ⟨by decide, by rfl, by decide, by decide⟩

/-- Claim C5 amended: `split_focus` followed immediately by
`combine_focus_with_next` restores the focused line's pre-split text, line
count and focus (next-join is the exact inverse of split); the prev-join
variant restores the text only after the focus is first moved down to the
newly created line (as the editor's enter-key handler does) — called
immediately with the focus unmoved it joins with the line above instead. -/
theorem c5_amended (b : List LineRec) (F : LineRec) (a : List LineRec)
    (fl : Option (List Char)) (cb : Option (List LineRec)) :
    (∃ s₁ s₂, splitFocus { lines := b ++ F :: a, file := fl, focus := (b.length : Int), clipboard := cb } = some s₁ ∧
       combineFocusWithNext s₁ = .ok s₂ ∧
       s₂.lines.map LineRec.edit_text = (b ++ F :: a).map LineRec.edit_text ∧
       s₂.lines.length = (b ++ F :: a).length ∧ s₂.focus = (b.length : Int)) ∧
    (∃ s₁ s₂, splitFocus { lines := b ++ F :: a, file := fl, focus := (b.length : Int), clipboard := cb } = some s₁ ∧
       combineFocusWithPrev (setFocus s₁ ((b.length : Int) + 1)) = .ok s₂ ∧
       s₂.lines.map LineRec.edit_text = (b ++ F :: a).map LineRec.edit_text ∧
       s₂.focus = (b.length : Int)) := by
  constructor
  · refine ⟨_, _, splitFocus_mid b F a fl cb, combineNext_mid b _ _ a fl cb, ?_, ?_, rfl⟩
    · simp [setEditText]
    · simp
  · refine ⟨_, _, splitFocus_mid b F a fl cb, combinePrev_mid b _ _ a fl cb, ?_, rfl⟩
    simp [setEditText, setEditPos]

/-! ### Claim C8: original_text is never mutated -/

theorem getAtPos_grow (ls : List LineRec) (f : List Char) (fc : Int) (cb : Option (List LineRec)) :
    getAtPos { lines := ls, file := some f, focus := fc, clipboard := cb } (ls.length : Int) =
      .ok (some (mkRec (readNextLineF f { lines := ls, file := some f, focus := fc, clipboard := cb }).1, (ls.length : Int)),
           (readNextLineF f { lines := ls, file := some f, focus := fc, clipboard := cb }).2) := by
  have h0 : ¬ ((ls.length : Int) < 0) := by omega
  have h1 : ¬ ((ls.length : Int).toNat < (({ lines := ls, file := some f, focus := fc, clipboard := cb } : State)).lines.length) := by simp
  unfold getAtPos
  rw [if_neg h0, dif_neg h1]
  simp

theorem combineNext_pull (b : List LineRec) (F : LineRec) (f : List Char) (cb : Option (List LineRec)) :
    ∃ s', combineFocusWithNext { lines := b ++ [F], file := some f, focus := (b.length : Int), clipboard := cb } = .ok s' ∧
      s'.lines.map LineRec.original_text = b.map LineRec.original_text ++ [F.original_text] := by
  have hlen : (((b ++ [F]).length : Nat) : Int) = (b.length : Int) + 1 := by simp
  have hget := getAtPos_grow (b ++ [F]) f (b.length : Int) cb
  rw [hlen] at hget
  have hl := readNextLineF_lines f { lines := b ++ [F], file := some f, focus := (b.length : Int), clipboard := cb }
  have hfoc := (readNextLineF_focus f { lines := b ++ [F], file := some f, focus := (b.length : Int), clipboard := cb }).1
  unfold combineFocusWithNext
  rw [hget]
  dsimp only
  rw [hfoc, hl]
  dsimp only
  have hshape : (b ++ [F]) ++ [mkRec (readNextLineF f { lines := b ++ [F], file := some f, focus := (b.length : Int), clipboard := cb }).1] =
      b ++ F :: [mkRec (readNextLineF f { lines := b ++ [F], file := some f, focus := (b.length : Int), clipboard := cb }).1] := by
    simp
  rw [hshape, pyGet_mid]
  dsimp only
  rw [pySet_mid]
  rw [pyDel_mid_succ]
  exact ⟨_, rfl, by simp [setEditText]⟩

theorem getAtPos_orig_extend (s : State) (pos : Int) (res : Option (LineRec × Int)) (s' : State)
    (h : getAtPos s pos = .ok (res, s')) :
    ∃ t, s'.lines.map LineRec.original_text = s.lines.map LineRec.original_text ++ t := by
  unfold getAtPos at h
  split at h
  · exact ⟨[], by cases h; simp⟩
  · split at h
    · exact ⟨[], by cases h; simp⟩
    · split at h
      · exact ⟨[], by cases h; simp⟩
      · rename_i f hf
        split at h
        · cases h
          refine ⟨[(readNextLineF f s).1], ?_⟩
          rw [readNextLineF_lines]
          simp [mkRec]
        · exact Except.noConfusion h

theorem cut_mid (b : List LineRec) (F : LineRec) (a : List LineRec)
    (fl : Option (List Char)) (cb : Option (List LineRec)) :
    cutToClipboard { lines := b ++ F :: a, file := fl, focus := (b.length : Int), clipboard := cb } =
      some { lines := b ++ a, file := fl, focus := (if (b.length : Int) = (((b ++ a).length : Nat) : Int) then (b.length : Int) - 1 else (b.length : Int)), clipboard := some (cb.getD [] ++ [F]) } := by
  unfold cutToClipboard
  dsimp only
  rw [pyPop_mid]

theorem paste_lines (b a : List LineRec) (fl : Option (List Char)) (cbl : List LineRec) :
    (pasteFromClipboard { lines := b ++ a, file := fl, focus := (b.length : Int), clipboard := some cbl }).lines =
      b ++ cbl.map mkPasted ++ a := by
  unfold pasteFromClipboard
  dsimp only
  exact paste_fold cbl b a

theorem readNextLineF_fuel (f : List Char) (s : State) :
    fileFuel (readNextLineF f s).2 < f.length + 1 := by
  have hap := pyReadline_append f
  by_cases hb : (pyReadline f).1 = [] ∨ (pyReadline f).1.getLast? ≠ some '\n'
  · simp [readNextLineF, hb, fileFuel]
  · have h1 : (pyReadline f).1 ≠ [] := fun he => hb (Or.inl he)
    have h2 : 0 < (pyReadline f).1.length := List.length_pos.mpr h1
    have h3 : (pyReadline f).1.length + (pyReadline f).2.length = f.length := by
      rw [← List.length_append, hap]
    simp [readNextLineF, hb, fileFuel]
    omega

theorem saveLoop_lines_aux :
    ∀ (n : Nat) (s : State), fileFuel s ≤ n →
      ((saveLoop s).2).lines.map LineRec.original_text =
        s.lines.map LineRec.original_text ++ (saveLoop s).1 := by
  intro n
  induction n with
  | zero =>
    intro s hn
    cases hf : s.file with
    | none => rw [saveLoop_closed s hf]; simp
    | some f =>
      exfalso
      simp [fileFuel, hf] at hn
  | succ n ih =>
    intro s hn
    cases hf : s.file with
    | none => rw [saveLoop_closed s hf]; simp
    | some f =>
      rw [saveLoop_open s f hf]
      dsimp only
      have hfu : fileFuel (readNextLineF f s).2 ≤ n := by
        have h1 := readNextLineF_fuel f s
        have h2 : fileFuel s = f.length + 1 := by simp [fileFuel, hf]
        omega
      rw [ih _ hfu, readNextLineF_lines]
      simp [mkRec]

theorem saveLoop_lines (s : State) :
    ((saveLoop s).2).lines.map LineRec.original_text =
      s.lines.map LineRec.original_text ++ (saveLoop s).1 :=
  saveLoop_lines_aux (fileFuel s) s le_rfl

/-- Claim C8: `original_text` set from the source is never changed by any
buffer operation.  For each public operation, the sequence of
`original_text` values of the surviving records is exactly the old sequence
with (at most) fresh entries inserted — a source pull appends the newly read
raw line, split and paste insert records whose `original_text` is `""`,
joins and cut only delete entries (cut moves the record, original intact,
onto the clipboard), and the save loop appends the pulled raw lines; no
existing entry is ever altered (edits touch only `edit_text`). -/
theorem c8_original_text_immutable :
    (∀ (s : State) (pos : Int) (res : Option (LineRec × Int)) (s' : State),
        getAtPos s pos = .ok (res, s') →
        ∃ t, s'.lines.map LineRec.original_text = s.lines.map LineRec.original_text ++ t) ∧
    (∀ (s : State) (fc : Int), (setFocus s fc).lines = s.lines) ∧
    (∀ (b : List LineRec) (F : LineRec) (a : List LineRec) (fl : Option (List Char)) (cb : Option (List LineRec)) (s' : State),
        splitFocus { lines := b ++ F :: a, file := fl, focus := (b.length : Int), clipboard := cb } = some s' →
        s'.lines.map LineRec.original_text =
          b.map LineRec.original_text ++ F.original_text :: [] :: a.map LineRec.original_text) ∧
    (∀ (b : List LineRec) (P F : LineRec) (a : List LineRec) (fl : Option (List Char)) (cb : Option (List LineRec)) (s' : State),
        combineFocusWithPrev { lines := b ++ P :: F :: a, file := fl, focus := (b.length : Int) + 1, clipboard := cb } = .ok s' →
        s'.lines.map LineRec.original_text =
          b.map LineRec.original_text ++ P.original_text :: a.map LineRec.original_text) ∧
    (∀ (b : List LineRec) (F N : LineRec) (a : List LineRec) (fl : Option (List Char)) (cb : Option (List LineRec)) (s' : State),
        combineFocusWithNext { lines := b ++ F :: N :: a, file := fl, focus := (b.length : Int), clipboard := cb } = .ok s' →
        s'.lines.map LineRec.original_text =
          b.map LineRec.original_text ++ F.original_text :: a.map LineRec.original_text) ∧
    (∀ (b : List LineRec) (F : LineRec) (f : List Char) (cb : Option (List LineRec)),
        ∃ s', combineFocusWithNext { lines := b ++ [F], file := some f, focus := (b.length : Int), clipboard := cb } = .ok s' ∧
          s'.lines.map LineRec.original_text = b.map LineRec.original_text ++ [F.original_text]) ∧
    (∀ (b : List LineRec) (F : LineRec) (a : List LineRec) (fl : Option (List Char)) (cb : Option (List LineRec)) (s' : State),
        cutToClipboard { lines := b ++ F :: a, file := fl, focus := (b.length : Int), clipboard := cb } = some s' →
        s'.lines.map LineRec.original_text = b.map LineRec.original_text ++ a.map LineRec.original_text ∧
        (s'.clipboard.getD []).map LineRec.original_text =
          (cb.getD []).map LineRec.original_text ++ [F.original_text]) ∧
    (∀ (b a : List LineRec) (fl : Option (List Char)) (cbl : List LineRec),
        (pasteFromClipboard { lines := b ++ a, file := fl, focus := (b.length : Int), clipboard := some cbl }).lines.map LineRec.original_text =
          b.map LineRec.original_text ++ cbl.map (fun _ => ([] : List Char)) ++ a.map LineRec.original_text) ∧
    (∀ s : State, ((saveLoop s).2).lines.map LineRec.original_text =
        s.lines.map LineRec.original_text ++ (saveLoop s).1) := by
  refine ⟨getAtPos_orig_extend, fun s fc => rfl, ?_, ?_, ?_, combineNext_pull, ?_, ?_, saveLoop_lines⟩
  · intro b F a fl cb s' h
    rw [splitFocus_mid] at h
    injection h with h
    subst h
    simp [setEditText]
  · intro b P F a fl cb s' h
    rw [combinePrev_mid] at h
    injection h with h
    subst h
    simp [setEditText, setEditPos]
  · intro b F N a fl cb s' h
    rw [combineNext_mid] at h
    injection h with h
    subst h
    simp [setEditText]
  · intro b F a fl cb s' h
    rw [cut_mid] at h
    injection h with h
    subst h
    constructor <;> simp
  · intro b a fl cbl
    rw [paste_lines]
    have hmap : (cbl.map mkPasted).map LineRec.original_text = cbl.map (fun _ => ([] : List Char)) := by
      induction cbl with
      | nil => rfl
      | cons c cs ih => simpa [mkPasted] using ih
    simp [hmap]

/-- Witness for C8 at a concrete cut of a one-line buffer. -/
theorem c8_witness :
    ([] : List LineRec).map LineRec.original_text =
      ([] : List LineRec).map LineRec.original_text ++ ([] : List LineRec).map LineRec.original_text ∧
    ((some [mkRec ['a']] : Option (List LineRec)).getD []).map LineRec.original_text =
      ((none : Option (List LineRec)).getD []).map LineRec.original_text ++ [(mkRec ['a']).original_text] :=
  c8_original_text_immutable.2.2.2.2.2.2.1 [] (mkRec ['a']) [] none none
    { lines := [], file := none, focus := -1, clipboard := some [mkRec ['a']] } (by decide)

/-! ### Claim C4: re_tab after tab expansion -/

theorem pyIsSpace_false (c : Char) (h : pyIsSpace c = false) :
    c ≠ ' ' ∧ c ≠ '\t' ∧ c ≠ '\n' ∧ c ≠ '\r' := by
  simp [pyIsSpace] at h
  refine ⟨?_, ?_, ?_, ?_⟩ <;> tauto

theorem expandtabsFrom_mod (s : List Char) :
    ∀ c₁ c₂ : Nat, c₁ % 8 = c₂ % 8 → expandtabsFrom c₁ s = expandtabsFrom c₂ s := by
  induction s with
  | nil => intro c₁ c₂ _; rfl
  | cons c cs ih =>
    intro c₁ c₂ h
    by_cases ht : c = '\t'
    · have hw : 8 - c₁ % 8 = 8 - c₂ % 8 := by omega
      have hnew : (c₁ + (8 - c₁ % 8)) % 8 = (c₂ + (8 - c₂ % 8)) % 8 := by omega
      simp only [expandtabsFrom, if_pos ht, hw]
      rw [ih _ _ (show (c₁ + (8 - c₂ % 8)) % 8 = (c₂ + (8 - c₂ % 8)) % 8 by omega)]
    · by_cases hn : c = '\n' ∨ c = '\r'
      · simp only [expandtabsFrom, if_neg ht, if_pos hn]
      · have hnew : (c₁ + 1) % 8 = (c₂ + 1) % 8 := by omega
        simp only [expandtabsFrom, if_neg ht, if_neg hn, ih _ _ hnew]

theorem expandtabsFrom_no_tab (s : List Char) (hs : ∀ c ∈ s, c ≠ '\t') :
    ∀ col, expandtabsFrom col s = s := by
  induction s with
  | nil => intro col; rfl
  | cons c cs ih =>
    intro col
    have hc : c ≠ '\t' := hs c (List.mem_cons_self c cs)
    have hcs : ∀ x ∈ cs, x ≠ '\t' := fun x hx => hs x (List.mem_cons_of_mem c hx)
    by_cases hn : c = '\n' ∨ c = '\r'
    · simp only [expandtabsFrom, if_neg hc, if_pos hn, ih hcs 0]
    · simp only [expandtabsFrom, if_neg hc, if_neg hn, ih hcs (col + 1)]

theorem expandtabsFrom_append (v : List Char) (t : List Char)
    (hv : ∀ c ∈ v, pyIsSpace c = false) :
    ∀ col, expandtabsFrom col (v ++ t) = v ++ expandtabsFrom (col + v.length) t := by
  induction v with
  | nil => intro col; simp
  | cons c cs ih =>
    intro col
    have hc := pyIsSpace_false c (hv c (List.mem_cons_self c cs))
    have hcs : ∀ x ∈ cs, pyIsSpace x = false := fun x hx => hv x (List.mem_cons_of_mem c hx)
    have hn : ¬ (c = '\n' ∨ c = '\r') := by
      rintro (h | h)
      · exact hc.2.2.1 h
      · exact hc.2.2.2 h
    simp only [List.cons_append, expandtabsFrom, if_neg hc.2.1, if_neg hn]
    rw [show cs.append t = cs ++ t from rfl, ih hcs (col + 1)]
    have harg : col + 1 + cs.length = col + (c :: cs).length := by simp; omega
    rw [harg]

theorem expandtabsFrom_ne_nil (s : List Char) (hs : s ≠ []) (col : Nat) :
    expandtabsFrom col s ≠ [] := by
  rcases s with _ | ⟨c, cs⟩
  · exact absurd rfl hs
  · by_cases ht : c = '\t'
    · simp only [expandtabsFrom, if_pos ht]
      intro hcontra
      have hlen := congrArg List.length hcontra
      simp at hlen
      omega
    · by_cases hn : c = '\n' ∨ c = '\r'
      · simp [expandtabsFrom, if_neg ht, if_pos hn]
      · simp [expandtabsFrom, if_neg ht, if_neg hn]

theorem dropWhile_replicate_append (p : Char → Bool) (k : Nat) (a : Char) (ha : p a = true)
    (l : List Char) : (List.replicate k a ++ l).dropWhile p = l.dropWhile p := by
  induction k with
  | zero => simp
  | succ k ih => simpa [List.replicate_succ, List.dropWhile, ha] using ih

theorem dropWhile_eq_self_of_false (p : Char → Bool) (l : List Char)
    (hl : ∀ c ∈ l, p c = false) : l.dropWhile p = l := by
  rcases l with _ | ⟨c, cs⟩
  · rfl
  · have hc : p c = false := hl c (List.mem_cons_self c cs)
    simp [List.dropWhile, hc]

theorem rstrip_append_replicate (v : List Char) (k : Nat)
    (hv : ∀ c ∈ v, pyIsSpace c = false) :
    rstrip (v ++ List.replicate k ' ') = v := by
  unfold rstrip
  rw [List.reverse_append, List.reverse_replicate]
  rw [dropWhile_replicate_append pyIsSpace k ' ' (by decide)]
  rw [dropWhile_eq_self_of_false pyIsSpace v.reverse (fun c hc => hv c (List.mem_reverse.mp hc))]
  exact List.reverse_reverse v

theorem reTabGo_noSpace (s : List Char) (hs : ∀ c ∈ s, pyIsSpace c = false) :
    ∀ (n i p : Nat), s.length ≤ i + n → reTabGo s i p = ([], p) := by
  intro n
  induction n with
  | zero =>
    intro i p hn
    rw [reTabGo.eq_def, dif_neg (by omega)]
  | succ n ih =>
    intro i p hn
    rw [reTabGo.eq_def]
    by_cases hi : i < s.length
    · rw [dif_pos hi]
      have hwin : ¬ ((s.drop (i - 2)).take 2 = [' ', ' ']) := by
        intro hw
        have hmem : ' ' ∈ s := by
          have h1 : ' ' ∈ (s.drop (i - 2)).take 2 := by rw [hw]; simp
          exact List.mem_of_mem_drop (List.mem_of_mem_take h1)
        have := hs ' ' hmem
        simp [pyIsSpace] at this
      rw [if_neg hwin]
      exact ih (i + 8) p (by omega)
    · rw [dif_neg hi]

theorem reTabGo_shift (B s : List Char) (hB : B.length = 8) :
    ∀ (n i p : Nat), s.length ≤ i + n → 2 ≤ i →
      reTabGo (B ++ s) (i + 8) (p + 8) = ((reTabGo s i p).1, (reTabGo s i p).2 + 8) := by
  intro n
  induction n with
  | zero =>
    intro i p hn _
    have h1 : ¬ (i + 8 < (B ++ s).length) := by simp [hB]; omega
    have h2 : ¬ (i < s.length) := by omega
    rw [reTabGo.eq_def, dif_neg h1, reTabGo.eq_def, dif_neg h2]
  | succ n ih =>
    intro i p hn hi2
    by_cases hi : i < s.length
    · have h1 : i + 8 < (B ++ s).length := by simp [hB]; omega
      have hdrop : (B ++ s).drop (i + 8 - 2) = s.drop (i - 2) := by
        have he : i + 8 - 2 = B.length + (i - 2) := by omega
        rw [he, List.drop_append]
      have hwin : ((B ++ s).drop (i + 8 - 2)).take 2 = ((s.drop (i - 2)).take 2) := by
        rw [hdrop]
      rw [reTabGo.eq_def, dif_pos h1]
      conv_rhs => rw [reTabGo.eq_def]
      rw [dif_pos hi]
      by_cases hw : ((s.drop (i - 2)).take 2) = [' ', ' ']
      · rw [if_pos (hwin.trans hw), if_pos hw]
        have hslice : ((B ++ s).take (i + 8)).drop (p + 8) = ((s.take i).drop p) := by
          have he : i + 8 = B.length + i := by omega
          have he2 : p + 8 = B.length + p := by omega
          rw [he, List.take_append, he2, List.drop_append]
        have hrec := ih (i + 8) i (by omega) (by omega)
        dsimp only
        rw [hslice]
        have he4 : i + 8 + 8 = (i + 8) + 8 := rfl
        rw [he4, hrec]
      · rw [if_neg (fun hc => hw (hwin.symm.trans hc)), if_neg hw]
        exact ih (i + 8) p (by omega) (by omega)
    · have h1 : ¬ (i + 8 < (B ++ s).length) := by simp [hB]; omega
      rw [reTabGo.eq_def, dif_neg h1, reTabGo.eq_def, dif_neg hi]

theorem reTabGo_snd (s : List Char) :
    ∀ (n i p : Nat), s.length ≤ i + n → p < i →
      (((reTabGo s i p).2 = p → (reTabGo s i p).1 = []) ∧ p ≤ (reTabGo s i p).2) := by
  intro n
  induction n with
  | zero =>
    intro i p hn hpi
    rw [reTabGo.eq_def, dif_neg (by omega : ¬ i < s.length)]
    exact ⟨fun _ => rfl, le_refl p⟩
  | succ n ih =>
    intro i p hn hpi
    rw [reTabGo.eq_def]
    by_cases hi : i < s.length
    · rw [dif_pos hi]
      by_cases hw : ((s.drop (i - 2)).take 2) = [' ', ' ']
      · rw [if_pos hw]
        dsimp only
        have hrec := ih (i + 8) i (by omega) (by omega)
        constructor
        · intro hp2
          exfalso
          omega
        · omega
      · rw [if_neg hw]
        exact ih (i + 8) p (by omega) (by omega)
    · rw [dif_neg hi]
      exact ⟨fun _ => rfl, le_refl p⟩

theorem re_tab_ext (s : List Char) :
    re_tab s = (reTabGo s 8 0).1.flatten ++ s.drop (reTabGo s 8 0).2 := by
  unfold re_tab
  by_cases hp : (reTabGo s 8 0).2 = 0
  · rw [if_pos hp]
    have h := (reTabGo_snd s s.length 8 0 (by omega) (by omega)).1 hp
    rw [h, hp]
    simp
  · rw [if_neg hp]

theorem mkOrig_ne_nil (vs : List (List Char)) (w : List Char) (hw : w ≠ []) :
    mkOrig vs w ≠ [] := by
  cases vs with
  | nil => exact hw
  | cons v vs =>
    simp [mkOrig]

/-- Claim C4 amended: `re_tab (expandtabs orig)` restores `orig` for every
string of the form `v₁ ⧺ '\t' ⧺ ... ⧺ vₙ ⧺ '\t' ⧺ w` whose segments are
whitespace-free, whose tabbed segments have length at most 6 (so every tab
expands by at least two columns and ends on an 8-column stop), and whose
final segment is non-empty (so the last tab stop lies strictly inside the
string — `re_tab` never scans the boundary at the very end). -/
theorem c4_amended (vs : List (List Char)) (w : List Char)
    (hvs : ∀ v ∈ vs, (∀ c ∈ v, pyIsSpace c = false) ∧ v.length ≤ 6)
    (hw : ∀ c ∈ w, pyIsSpace c = false) (hwne : w ≠ []) :
    re_tab (expandtabs (mkOrig vs w)) = mkOrig vs w := by
  induction vs with
  | nil =>
    have hnt : ∀ c ∈ w, c ≠ '\t' := fun c hc => (pyIsSpace_false c (hw c hc)).2.1
    have he : expandtabs w = w := expandtabsFrom_no_tab w hnt 0
    show re_tab (expandtabs w) = w
    rw [he]
    have hgo := reTabGo_noSpace w hw w.length 8 0 (by omega)
    unfold re_tab
    rw [hgo]
    simp
  | cons v vs ih =>
    obtain ⟨hv, hv6⟩ := hvs v (List.mem_cons_self v vs)
    have hvs' : ∀ x ∈ vs, (∀ c ∈ x, pyIsSpace c = false) ∧ x.length ≤ 6 :=
      fun x hx => hvs x (List.mem_cons_of_mem v hx)
    have ihr := ih hvs'
    have hmod : v.length % 8 = v.length := Nat.mod_eq_of_lt (by omega)
    have hsplit : expandtabs (mkOrig (v :: vs) w) =
        (v ++ List.replicate (8 - v.length) ' ') ++ expandtabs (mkOrig vs w) := by
      show expandtabsFrom 0 (v ++ '\t' :: mkOrig vs w) = _
      rw [expandtabsFrom_append v ('\t' :: mkOrig vs w) hv 0]
      have hstep : expandtabsFrom (0 + v.length) ('\t' :: mkOrig vs w) =
          List.replicate (8 - v.length % 8) ' ' ++
            expandtabsFrom (v.length + (8 - v.length % 8)) (mkOrig vs w) := by
        simp [expandtabsFrom]
      rw [hstep, hmod]
      rw [expandtabsFrom_mod (mkOrig vs w) (v.length + (8 - v.length)) 0 (by omega)]
      rw [← List.append_assoc]
      rfl
    have hB : (v ++ List.replicate (8 - v.length) ' ').length = 8 := by
      simp
      omega
    have hTne : expandtabs (mkOrig vs w) ≠ [] :=
      expandtabsFrom_ne_nil _ (mkOrig_ne_nil vs w hwne) 0
    have hTlen : 0 < (expandtabs (mkOrig vs w)).length := List.length_pos.mpr hTne
    have hdrop6 : (v ++ List.replicate (8 - v.length) ' ').drop 6 = [' ', ' '] := by
      rw [show (6 : Nat) = v.length + (6 - v.length) from by omega, List.drop_append]
      rw [List.drop_replicate]
      rw [show 8 - v.length - (6 - v.length) = 2 from by omega]
      rfl
    have hwin : (((v ++ List.replicate (8 - v.length) ' ') ++ expandtabs (mkOrig vs w)).drop 6).take 2 = [' ', ' '] := by
      rw [List.drop_append_of_le_length (by omega : 6 ≤ (v ++ List.replicate (8 - v.length) ' ').length)]
      rw [hdrop6]
      rfl
    have hseg : rstrip ((((v ++ List.replicate (8 - v.length) ' ') ++ expandtabs (mkOrig vs w)).take 8).drop 0) = v := by
      rw [List.drop_zero, List.take_left' hB]
      exact rstrip_append_replicate v _ hv
    have hshifted := reTabGo_shift (v ++ List.replicate (8 - v.length) ' ') (expandtabs (mkOrig vs w)) hB (expandtabs (mkOrig vs w)).length 8 0 (by omega) (by omega)
    simp only [Nat.zero_add] at hshifted
    have hcond : 8 < ((v ++ List.replicate (8 - v.length) ' ') ++ expandtabs (mkOrig vs w)).length := by
      simp only [List.length_append, hB]
      omega
    have hgo : reTabGo ((v ++ List.replicate (8 - v.length) ' ') ++ expandtabs (mkOrig vs w)) 8 0 =
        ((v ++ ['\t']) :: (reTabGo (expandtabs (mkOrig vs w)) 8 0).1,
          (reTabGo (expandtabs (mkOrig vs w)) 8 0).2 + 8) := by
      rw [reTabGo.eq_def, dif_pos hcond]
      rw [show (8 : Nat) - 2 = 6 from rfl, if_pos hwin]
      dsimp only
      rw [hseg, hshifted]
    show re_tab (expandtabs (mkOrig (v :: vs) w)) = mkOrig (v :: vs) w
    rw [hsplit, re_tab_ext, hgo]
    dsimp only
    rw [List.flatten_cons]
    rw [show (reTabGo (expandtabs (mkOrig vs w)) 8 0).2 + 8 =
        (v ++ List.replicate (8 - v.length) ' ').length + (reTabGo (expandtabs (mkOrig vs w)) 8 0).2 from by omega]
    rw [List.drop_append]
    rw [List.append_assoc]
    rw [← re_tab_ext (expandtabs (mkOrig vs w))]
    rw [ihr]
    simp [mkOrig]

/-- Claim C4 counterexample: the single-tab string `"\t"` has its tab at a
column-aligned position (column 0), yet `re_tab (expandtabs "\t")` is eight
spaces, not `"\t"` — the `range(8, len(s), 8)` scan of `re_tab` never visits
the window boundary that coincides with the end of the string, so a trailing
tab is never reconstructed. -/
theorem c4_counterexample :
    tabsAligned 0 ['\t'] = true ∧
    expandtabs ['\t'] = [' ', ' ', ' ', ' ', ' ', ' ', ' ', ' '] ∧
    re_tab (expandtabs ['\t']) = [' ', ' ', ' ', ' ', ' ', ' ', ' ', ' '] ∧
    re_tab (expandtabs ['\t']) ≠ ['\t'] := by
  have he : expandtabs ['\t'] = [' ', ' ', ' ', ' ', ' ', ' ', ' ', ' '] := by decide
  have hgo : reTabGo ([' ', ' ', ' ', ' ', ' ', ' ', ' ', ' '] : List Char) 8 0 = ([], 0) := by
    rw [reTabGo.eq_def]
    norm_num
  have hrt : re_tab ([' ', ' ', ' ', ' ', ' ', ' ', ' ', ' '] : List Char) =
      [' ', ' ', ' ', ' ', ' ', ' ', ' ', ' '] := by
    unfold re_tab
    rw [hgo]
    simp
  refine ⟨by decide, he, by rw [he, hrt], by rw [he, hrt]; decide⟩

/-- Witness for C4 (amended) at the concrete generated string `"a\tb"`. -/
theorem c4_witness :
    re_tab (expandtabs (mkOrig [['a']] ['b'])) = mkOrig [['a']] ['b'] :=
  c4_amended [['a']] ['b'] (by decide) (by decide) (by decide)
